import Mathlib

/-!
# Jaro and Jaro-Winkler similarity (package `distance`)

A shallow embedding of `distance.go` and proofs about it.

Conventions of the embedding
* A Go `string` is a finite sequence of bytes; a byte is a natural number
  (below 256 in any real string; nothing below depends on that bound).
* A Go `int` is 64 bits wide and is an integer of `Int`.  The loop indices,
  the counters and the window never leave the 64-bit range for strings that
  fit in memory, so no wrap-around is modelled for them.  The sums and
  products of the score expression do leave it for long strings: there every
  operation is followed by the two's complement wrap-around `wrap64`.
* An index expression `s[i]` panics when `i` is out of range.  A panic is the
  result `none`; every function that indexes returns an `Option`.
* `float64` values are read as exact rationals: the literals `1.0`, `0.0` and
  `0.1` are `1`, `0` and `1/10`, and `float64(x) / float64(y)` is the quotient
  of the integers `x` and `y` in `ℚ`.  For `y = 0` Go yields an infinity or
  NaN, which `ℚ` does not have; the quotient of `ℚ` is `0` there.  The divisor
  itself is kept in the outcome of `Jaro`; the bounds and values proved for a
  score are proved under a size bound that keeps the divisor positive, and a
  value stated beyond that bound is stated at a divisor other than `0`.
* A `for` loop with a counter is a function recursive on a budget of loop
  tests, started with one more than the number of iterations the counter
  allows.  A budget used up is `none` as well, so a result `some _` is always a
  result the loop itself reached: by its test failing or by `break`.
-/

namespace Distance

/-- A Go string: its bytes, in order. -/
abbrev GoString := List Nat

/-- The bytes of a text made of ASCII characters only (for such a text the
UTF-8 encoding has one byte per character, the character's code). -/
def ascii (s : String) : GoString := s.toList.map Char.toNat

/-- Source: `func min(a, b int) int`. -/
def min (a b : Int) : Int := if a < b then a else b

/-- Source: `func max(a, b int) int`. -/
def max (a b : Int) : Int := if a > b then a else b

/-- Go's `len(s)`. -/
def len {α : Type} (s : List α) : Int := (s.length : Int)

/-- The index expression `s[i]` as a read: `none` is the run-time panic of an
index out of range. -/
def index {α : Type} (s : List α) (i : Int) : Option α :=
  if 0 ≤ i ∧ i < len s then s[i.toNat]? else none

/-- The index expression `s[i] = v` as a write: `none` is the run-time panic of
an index out of range. -/
def assign {α : Type} (s : List α) (i : Int) (v : α) : Option (List α) :=
  if 0 ≤ i ∧ i < len s then some (s.set i.toNat v) else none

/-- A UTF-8 continuation byte (`locb <= c && c <= hicb` in Go's runtime). -/
def isCont (c : Nat) : Bool := 0x80 ≤ c && c ≤ 0xBF

/-- Number of bytes that one step of `for i := range s` consumes at the front
of a non-empty `s`: the width of a well-formed UTF-8 encoding found there, and
1 for a byte below `0x80` or for anything that is not a well-formed encoding
(Go then yields U+FFFD and advances one byte).  The decoded value
`(c0 & mask) << k | ...` is written with `%`, `*` and `+`. -/
def runeWidth : GoString → Nat
  | [] => 1
  | c0 :: t =>
    if c0 < 0x80 then 1
    else if 0xC0 ≤ c0 ∧ c0 < 0xE0 then
      match t with
      | c1 :: _ =>
        if isCont c1 ∧ 0x7F < (c0 % 32) * 64 + c1 % 64 then 2 else 1
      | _ => 1
    else if 0xE0 ≤ c0 ∧ c0 < 0xF0 then
      match t with
      | c1 :: c2 :: _ =>
        let r := (c0 % 16) * 4096 + (c1 % 64) * 64 + c2 % 64
        if isCont c1 ∧ isCont c2 ∧ 0x7FF < r ∧ ¬ (0xD800 ≤ r ∧ r ≤ 0xDFFF) then 3 else 1
      | _ => 1
    else if 0xF0 ≤ c0 ∧ c0 < 0xF8 then
      match t with
      | c1 :: c2 :: c3 :: _ =>
        let r := (c0 % 8) * 262144 + (c1 % 64) * 4096 + (c2 % 64) * 64 + c3 % 64
        if isCont c1 ∧ isCont c2 ∧ isCont c3 ∧ 0xFFFF < r ∧ r ≤ 0x10FFFF then 4 else 1
      | _ => 1
    else 1

/-- The index values of `for i := range s` over what is left of a string:
`k` is the byte offset of the front of `s`, `skip` the number of bytes still
belonging to the code point that was started last. -/
def rangeFrom : GoString → Nat → Int → List Int
  | [], _, _ => []
  | c :: rest, 0, k => k :: rangeFrom rest (runeWidth (c :: rest) - 1) (k + 1)
  | _ :: rest, skip + 1, k => rangeFrom rest skip (k + 1)

/-- The successive values of `ia` in `for ia := range a`: the byte offsets at
which the code points of `a` start. -/
def rangeIndices (a : GoString) : List Int := rangeFrom a 0 0

/-- The variables the matching pass updates: `am`, `bm` and `match`. -/
structure MatchState where
  am : List Bool
  bm : List Bool
  matched : Int
deriving DecidableEq, Repr

/-- The inner loop of the matching pass, `for ib := left; ib < right; ib++`,
from the value `ib` on, with a budget of `n` loop tests.  The condition
`a[ia] == b[ib] && !bm[ib]` reads `bm[ib]` only when the bytes are equal. -/
def findLoop (a b : GoString) (ia right : Int) : Nat → Int → MatchState → Option MatchState
  | 0, _, _ => none
  | n + 1, ib, st =>
    if ib < right then
      (index a ia).bind fun x =>
      (index b ib).bind fun y =>
      if x = y then
        (index st.bm ib).bind fun used =>
        if !used then
          (assign st.am ia true).bind fun am1 =>
          (assign st.bm ib true).bind fun bm1 =>
          some ⟨am1, bm1, st.matched + 1⟩
        else findLoop a b ia right n (ib + 1) st
      else findLoop a b ia right n (ib + 1) st
    else some st

/-- The matching pass, `for ia := range a { ... }`, over the index values
that remain. -/
def matchLoop (a b : GoString) (window : Int) : List Int → MatchState → Option MatchState
  | [], st => some st
  | ia :: rest, st =>
    let left := max 0 (ia - window)
    let right := min (ia + window + 1) (len b)
    (findLoop a b ia right ((right - left).toNat + 1) left st).bind fun st1 =>
    matchLoop a b window rest st1

/-- Source: `window := max(lenA, lenB)/2 - 1`. -/
def window (a b : GoString) : Int := max (len a) (len b) / 2 - 1

/-- The matching pass of `Jaro` from its initial state
(`match := 0`, `am := make([]bool, lenA)`, `bm := make([]bool, lenB)`). -/
def matching (a b : GoString) : Option MatchState :=
  matchLoop a b (window a b) (rangeIndices a)
    ⟨List.replicate a.length false, List.replicate b.length false, 0⟩

/-- The cursor search `for ; ib < lenB; ib++ { if bm[ib] { left = ib + 1; break } }`
from the value `ib` on, with a budget of `n` loop tests: the final `ib` and
the final `left`. -/
def cursorLoop (bm : List Bool) (lenB : Int) : Nat → Int → Int → Option (Int × Int)
  | 0, _, _ => none
  | n + 1, ib, left =>
    if ib < lenB then
      (index bm ib).bind fun m =>
      if m then some (ib, ib + 1) else cursorLoop bm lenB n (ib + 1) left
    else some (ib, left)

/-- The transposition walk, `for ia := range a { if am[ia] { ... } }`, over the
index values that remain, from the current `left` and `transpose`: the final
`transpose` before it is halved. -/
def transposeLoop (a b : GoString) (am bm : List Bool) : List Int → Int → Int → Option Int
  | [], _, transpose => some transpose
  | ia :: rest, left, transpose =>
    (index am ia).bind fun m =>
    if m then
      (cursorLoop bm (len b) ((len b - left).toNat + 1) left left).bind fun r =>
      (index a ia).bind fun x =>
      (index b r.1).bind fun y =>
      transposeLoop a b am bm rest r.2 (if x ≠ y then transpose + 1 else transpose)
    else transposeLoop a b am bm rest left transpose

/-- The transposition count of `Jaro`: the walk from `left := 0`,
`transpose := 0`, then `transpose >>= 1` (for an `int`, the floor of the half). -/
def transpositions (a b : GoString) (st : MatchState) : Option Int :=
  (transposeLoop a b st.am st.bm (rangeIndices a) 0 0).map fun t => t / 2

/-- The value a 64-bit `int` holds after an operation whose exact result is
`x`: two's complement wrap-around. -/
def wrap64 (x : Int) : Int := (x + 2 ^ 63) % 2 ^ 64 - 2 ^ 63

/-- The dividend `match*match*(lenA+lenB) + lenA*lenB*(match-transpose)` that
`Jaro` converts with `float64(...)`: every operation on 64-bit `int`s, in Go's
order of evaluation. -/
def scoreNum64 (lenA lenB m t : Int) : Int :=
  wrap64 (wrap64 (wrap64 (m * m) * wrap64 (lenA + lenB)) +
    wrap64 (wrap64 (lenA * lenB) * wrap64 (m - t)))

/-- The divisor `3*lenA*lenB*match` that `Jaro` converts with `float64(...)`:
every operation on 64-bit `int`s, in Go's order of evaluation. -/
def scoreDen64 (lenA lenB m : Int) : Int := wrap64 (wrap64 (wrap64 (3 * lenA) * lenB) * m)

/-- From the spec's formula: the mathematical value of the dividend
`match² · (lenA + lenB) + lenA · lenB · (match − transpositions)`, without
wrap-around.  It is what `scoreNum64` is compared with, not what the code
computes. -/
def scoreNum (lenA lenB m t : Int) : Int := m * m * (lenA + lenB) + lenA * lenB * (m - t)

/-- From the spec's formula: the mathematical value of the divisor
`3 · lenA · lenB · match`, without wrap-around.  It is what `scoreDen64` is
compared with, not what the code computes. -/
def scoreDen (lenA lenB m : Int) : Int := 3 * lenA * lenB * m

/-- The way a call of `Jaro` returns. -/
inductive Outcome
  /-- The case `a == b`: `return 1.0`. -/
  | same
  /-- The case `a == "" || b == ""`: `return 0.0`. -/
  | empty
  /-- The case `match == 0`: `score` is still `0.0`. -/
  | noMatch
  /-- The score `float64(num) / float64(den)` was computed, `num` and `den`
  being the 64-bit values of the dividend and of the divisor. -/
  | fraction (num den : Int)
deriving DecidableEq, Repr

/-- The value returned on each way out of `Jaro`.  For a fraction with divisor
`0`, where Go returns an infinity or NaN, it is the quotient of `ℚ`, which is
`0`. -/
def Outcome.value : Outcome → ℚ
  | .same => 1
  | .empty => 0
  | .noMatch => 0
  | .fraction num den => (num : ℚ) / (den : ℚ)

/-- Source: `func Jaro(a, b string) float64`, up to the way it returns. -/
def jaroOutcome (a b : GoString) : Option Outcome :=
  if a = b then some .same
  else if a = [] ∨ b = [] then some .empty
  else
    (matching a b).bind fun st =>
    if st.matched ≠ 0 then
      (transpositions a b st).bind fun transpose =>
      some (.fraction (scoreNum64 (len a) (len b) st.matched transpose)
        (scoreDen64 (len a) (len b) st.matched))
    else some .noMatch

/-- Source: `func Jaro(a, b string) float64`. -/
def Jaro (a b : GoString) : Option ℚ := (jaroOutcome a b).map Outcome.value

/-- The prefix loop of `JaroWinkler`, `for i := 0; i < limit && a[i] == b[i]; i++`,
from the value `i` on, with a budget of `n` loop tests: the final `prefix`. -/
def prefixLoop (a b : GoString) (limit : Int) : Nat → Int → Int → Option Int
  | 0, _, _ => none
  | n + 1, i, pre =>
    if i < limit then
      (index a i).bind fun x =>
      (index b i).bind fun y =>
      if x = y then prefixLoop a b limit n (i + 1) (pre + 1) else some pre
    else some pre

/-- The value of `prefix` when the loop of `JaroWinkler` ends. -/
def prefixCount (a b : GoString) : Option Int :=
  let limit := min 4 (min (len a) (len b))
  prefixLoop a b limit (limit.toNat + 1) 0 0

/-- Source: `func JaroWinkler(a, b string) float64`. -/
def JaroWinkler (a b : GoString) : Option ℚ :=
  (prefixCount a b).bind fun pre =>
  (Jaro a b).bind fun jaro =>
  some (jaro + (1 / 10 : ℚ) * (pre : ℚ) * (1 - jaro))

/-- Number of index values in `ias` at which `am` holds `true`. -/
def marked (am : List Bool) (ias : List Int) : Nat :=
  ias.countP fun ia => index am ia == some true

/-- From the spec's words (common-prefix length): the first `k` positions of
`a` and `b` exist and hold equal bytes. -/
def IsCommonPrefixLen (a b : GoString) (k : Nat) : Prop :=
  k ≤ a.length ∧ k ≤ b.length ∧ ∀ i, i < k → a[i]? = b[i]?

/-- From the spec's words: `L` is the length of the longest common prefix of
`a` and `b`, the largest `k` that is a common-prefix length. -/
def IsLongestCommonPrefixLen (a b : GoString) (L : Nat) : Prop :=
  IsCommonPrefixLen a b L ∧ ∀ k, IsCommonPrefixLen a b k → k ≤ L

/-- The value `jaro + weight*float64(prefix)*(1.0-jaro)` that `JaroWinkler`
returns, as a function of the base score and of the prefix count. -/
def winklerScore (jaro : ℚ) (pre : Int) : ℚ := jaro + (1 / 10 : ℚ) * (pre : ℚ) * (1 - jaro)

/-- From the claim's words: an integer lies in `[0, 2^63)`. -/
def FitsInt64 (x : Int) : Prop := 0 ≤ x ∧ x < 2 ^ 63

/-- From the claim's words: the bytes of `s` at the positions that `m` marks
`true`, in increasing order of position (the matched characters of `s`). -/
def matchedChars : GoString → List Bool → GoString
  | c :: s, true :: m => c :: matchedChars s m
  | _ :: s, false :: m => matchedChars s m
  | _, _ => []

/-- From the claim's words: the number of indices `k` at which the `k`-th
entries of two lists differ. -/
def mismatches : List Nat → List Nat → Nat
  | x :: xs, y :: ys => (if x ≠ y then 1 else 0) + mismatches xs ys
  | _, _ => 0

/-- The byte `a[ia]` when `am[ia]` is set: what the transposition walk reads
of `a` at the index value `ia`. -/
def markedChar (a : GoString) (am : List Bool) (ia : Int) : Option Nat :=
  if index am ia = some true then index a ia else none

/-! ## Reads and writes in range -/

theorem index_eq_getElem? {α : Type} (s : List α) (i : Int) (h0 : 0 ≤ i) (h1 : i < len s) :
    index s i = s[i.toNat]? := by
  simp [index, h0, h1]

theorem index_some {α : Type} (s : List α) (i : Int) (h0 : 0 ≤ i) (h1 : i < len s) :
    ∃ x, index s i = some x := by
  have h : i.toNat < s.length := by unfold len at h1; omega
  exact ⟨s[i.toNat], by rw [index_eq_getElem? s i h0 h1, List.getElem?_eq_getElem h]⟩

theorem index_bounds {α : Type} (s : List α) (i : Int) (x : α) (h : index s i = some x) :
    0 ≤ i ∧ i < len s := by
  unfold index at h
  by_cases hc : 0 ≤ i ∧ i < len s
  · exact hc
  · simp [hc] at h

theorem assign_eq {α : Type} (s : List α) (i : Int) (v : α) (h0 : 0 ≤ i) (h1 : i < len s) :
    assign s i v = some (s.set i.toNat v) := by
  simp [assign, h0, h1]

theorem count_set_true (l : List Bool) (i : Nat) (h : l[i]? = some false) :
    (l.set i true).count true = l.count true + 1 := by
  induction l generalizing i with
  | nil => simp at h
  | cons x t ih =>
    cases i with
    | zero =>
      simp at h
      subst h
      simp
    | succ j =>
      simp at h
      have := ih j h
      cases x <;> simp [List.count_cons, this]

/-! ## The index values of `range` -/

theorem rangeFrom_bounds : ∀ (s : GoString) (skip : Nat) (k : Int),
    ∀ i ∈ rangeFrom s skip k, k ≤ i ∧ i < k + s.length
  | [], _, _ => by simp [rangeFrom]
  | c :: rest, 0, k => by
    intro i hi
    simp only [rangeFrom, List.mem_cons] at hi
    rcases hi with rfl | hi
    · simp
    · have := rangeFrom_bounds rest _ _ i hi
      simp only [List.length_cons]; push_cast; omega
  | c :: rest, skip + 1, k => by
    intro i hi
    simp only [rangeFrom] at hi
    have := rangeFrom_bounds rest _ _ i hi
    simp only [List.length_cons]; push_cast; omega

theorem rangeFrom_nodup : ∀ (s : GoString) (skip : Nat) (k : Int), (rangeFrom s skip k).Nodup
  | [], _, _ => by simp [rangeFrom]
  | c :: rest, 0, k => by
    simp only [rangeFrom, List.nodup_cons]
    refine ⟨fun hi => ?_, rangeFrom_nodup rest _ _⟩
    have := rangeFrom_bounds rest _ _ _ hi
    omega
  | c :: rest, skip + 1, k => by
    simp only [rangeFrom]
    exact rangeFrom_nodup rest _ _

theorem rangeFrom_length : ∀ (s : GoString) (skip : Nat) (k : Int),
    (rangeFrom s skip k).length ≤ s.length
  | [], _, _ => by simp [rangeFrom]
  | c :: rest, 0, k => by
    simp only [rangeFrom, List.length_cons]
    have := rangeFrom_length rest (runeWidth (c :: rest) - 1) (k + 1)
    omega
  | c :: rest, skip + 1, k => by
    simp only [rangeFrom, List.length_cons]
    have := rangeFrom_length rest skip (k + 1)
    omega

theorem rangeIndices_bounds (a : GoString) : ∀ i ∈ rangeIndices a, 0 ≤ i ∧ i < len a := by
  intro i hi
  have := rangeFrom_bounds a 0 0 i hi
  unfold len; omega

/-! ## The matching pass -/

theorem findLoop_spec (a b : GoString) (ia right : Int) (hia0 : 0 ≤ ia) (hia1 : ia < len a)
    (hr : right ≤ len b) :
    ∀ (n : Nat) (ib : Int) (st : MatchState), 0 ≤ ib → (right - ib).toNat < n →
      len st.am = len a → len st.bm = len b →
      findLoop a b ia right n ib st = some st ∨
      ∃ j : Int, ib ≤ j ∧ j < right ∧ index st.bm j = some false ∧ index a ia = index b j ∧
        findLoop a b ia right n ib st =
          some ⟨st.am.set ia.toNat true, st.bm.set j.toNat true, st.matched + 1⟩ := by
  intro n
  induction n with
  | zero => intro ib st _ hn _ _; omega
  | succ n ih =>
    intro ib st hib hn ham hbm
    by_cases hlt : ib < right
    · obtain ⟨x, hx⟩ := index_some a ia hia0 hia1
      obtain ⟨y, hy⟩ := index_some b ib hib (by omega)
      obtain ⟨u, hu⟩ := index_some st.bm ib hib (by omega)
      have hrec : findLoop a b ia right n (ib + 1) st = some st ∨
          ∃ j : Int, ib ≤ j ∧ j < right ∧ index st.bm j = some false ∧ index a ia = index b j ∧
            findLoop a b ia right n (ib + 1) st =
              some ⟨st.am.set ia.toNat true, st.bm.set j.toNat true, st.matched + 1⟩ := by
        rcases ih (ib + 1) st (by omega) (by omega) ham hbm with h | ⟨j, h1, h2, h3, h4, h5⟩
        · exact Or.inl h
        · exact Or.inr ⟨j, by omega, h2, h3, h4, h5⟩
      by_cases hxy : x = y
      · cases u with
        | false =>
          right
          refine ⟨ib, le_refl _, hlt, hu, by rw [hx, hy, hxy], ?_⟩
          simp [findLoop, hlt, hx, hy, hxy, hu, assign_eq st.am ia true hia0 (by omega),
            assign_eq st.bm ib true hib (by omega)]
        | true =>
          simpa [findLoop, hlt, hx, hy, hxy, hu] using hrec
      · simpa [findLoop, hlt, hx, hy, hxy] using hrec
    · left
      simp [findLoop, hlt]

theorem len_set {α : Type} (s : List α) (n : Nat) (v : α) : len (s.set n v) = len s := by
  simp [len]

theorem index_set_ne {α : Type} (s : List α) (i x : Int) (v : α) (hi : 0 ≤ i) (hne : x ≠ i) :
    index (s.set i.toNat v) x = index s x := by
  unfold index
  rw [len_set]
  by_cases hc : 0 ≤ x ∧ x < len s
  · have hn : i.toNat ≠ x.toNat := by omega
    simp [hc, List.getElem?_set_ne hn]
  · simp [hc]

theorem index_set_self {α : Type} (s : List α) (i : Int) (v : α) (h0 : 0 ≤ i) (h1 : i < len s) :
    index (s.set i.toNat v) i = some v := by
  have h : i.toNat < s.length := by unfold len at h1; omega
  unfold index
  rw [len_set]
  simp [h0, h1, h]

theorem marked_append (am : List Bool) (P R : List Int) :
    marked am (P ++ R) = marked am P + marked am R := by
  simp [marked, List.countP_append]

theorem marked_le_length (am : List Bool) (P : List Int) : marked am P ≤ P.length :=
  List.countP_le_length _

theorem marked_congr (am am1 : List Bool) (P : List Int)
    (h : ∀ x ∈ P, index am1 x = index am x) : marked am1 P = marked am P := by
  unfold marked
  apply List.countP_congr
  intro x hx
  rw [h x hx]

theorem matchLoop_spec (a b : GoString) (w : Int) :
    ∀ (R P : List Int) (st : MatchState),
      (∀ ia ∈ R, 0 ≤ ia ∧ ia < len a) → (P ++ R).Nodup →
      len st.am = len a → len st.bm = len b →
      (st.bm.count true : Int) = st.matched → (marked st.am P : Int) = st.matched →
      (∀ ia ∈ R, index st.am ia = some false) →
      ∃ st1, matchLoop a b w R st = some st1 ∧ len st1.am = len a ∧ len st1.bm = len b ∧
        (st1.bm.count true : Int) = st1.matched ∧
        (marked st1.am (P ++ R) : Int) = st1.matched := by
  intro R
  induction R with
  | nil =>
    intro P st _ _ ham hbm hcb hca _
    exact ⟨st, rfl, ham, hbm, hcb, by simpa using hca⟩
  | cons ia rest ih =>
    intro P st hR hnd ham hbm hcb hca hfalse
    have hia := hR ia (List.mem_cons_self _ _)
    have hright : min (ia + w + 1) (len b) ≤ len b := by unfold min; split <;> omega
    have hleft : 0 ≤ max 0 (ia - w) := by unfold max; split <;> omega
    have hnd1 : ((P ++ [ia]) ++ rest).Nodup := by simpa using hnd
    have hrest : ∀ x ∈ rest, 0 ≤ x ∧ x < len a := fun x hx => hR x (List.mem_cons_of_mem _ hx)
    have hiaP : ia ∉ P := by
      intro hmem
      have := List.nodup_append.mp hnd
      exact this.2.2 hmem (List.mem_cons_self _ _)
    have hiaR : ia ∉ rest := by
      have := (List.nodup_append.mp hnd).2.1
      exact (List.nodup_cons.mp this).1
    have hfia : index st.am ia = some false := hfalse ia (List.mem_cons_self _ _)
    rcases findLoop_spec a b ia _ hia.1 hia.2 hright
        ((min (ia + w + 1) (len b) - max 0 (ia - w)).toNat + 1) (max 0 (ia - w)) st hleft
        (by omega) ham hbm
      with h | ⟨j, hj1, hj2, hj3, _, h⟩
    · have hca1 : (marked st.am (P ++ [ia]) : Int) = st.matched := by
        rw [marked_append]
        have : marked st.am [ia] = 0 := by simp [marked, hfia]
        rw [this]; simpa using hca
      obtain ⟨st1, h1, h2, h3, h4, h5⟩ := ih (P ++ [ia]) st hrest hnd1 ham hbm hcb hca1
        (fun x hx => hfalse x (List.mem_cons_of_mem _ hx))
      refine ⟨st1, ?_, h2, h3, h4, by simpa using h5⟩
      simp only [matchLoop, h, Option.some_bind, h1]
    · have hjb := index_bounds _ _ _ hj3
      have hbmj : st.bm[j.toNat]? = some false := by
        rw [← index_eq_getElem? st.bm j hjb.1 hjb.2]; exact hj3
      have hcb1 : (((st.bm.set j.toNat true).count true : Nat) : Int) = st.matched + 1 := by
        rw [count_set_true _ _ hbmj]; push_cast; omega
      have hca1 : (marked (st.am.set ia.toNat true) (P ++ [ia]) : Int) = st.matched + 1 := by
        rw [marked_append]
        have e1 : marked (st.am.set ia.toNat true) P = marked st.am P :=
          marked_congr _ _ _ fun x hx =>
            index_set_ne st.am ia x true hia.1 (fun e => hiaP (e ▸ hx))
        have e2 : marked (st.am.set ia.toNat true) [ia] = 1 := by
          simp [marked, index_set_self st.am ia true hia.1 (by omega)]
        rw [e1, e2]; push_cast; omega
      obtain ⟨st1, h1, h2, h3, h4, h5⟩ := ih (P ++ [ia])
        ⟨st.am.set ia.toNat true, st.bm.set j.toNat true, st.matched + 1⟩ hrest hnd1
        (by simpa [len_set] using ham) (by simpa [len_set] using hbm) hcb1 hca1
        (fun x hx => by
          have hne : x ≠ ia := fun e => hiaR (e ▸ hx)
          simp only
          rw [index_set_ne st.am ia x true hia.1 hne]
          exact hfalse x (List.mem_cons_of_mem _ hx))
      refine ⟨st1, ?_, h2, h3, h4, by simpa using h5⟩
      simp only [matchLoop, h, Option.some_bind, h1]

theorem index_replicate_false (n : Nat) (i : Int) (h0 : 0 ≤ i) (h1 : i < (n : Int)) :
    index (List.replicate n false) i = some false := by
  have h : i.toNat < n := by omega
  rw [index_eq_getElem? _ _ h0 (by simpa [len] using h1)]
  simp [List.getElem?_replicate, h]

theorem matching_spec (a b : GoString) :
    ∃ st, matching a b = some st ∧ len st.am = len a ∧ len st.bm = len b ∧
      (st.bm.count true : Int) = st.matched ∧
      (marked st.am (rangeIndices a) : Int) = st.matched := by
  have h := matchLoop_spec a b (window a b) (rangeIndices a) []
    ⟨List.replicate a.length false, List.replicate b.length false, 0⟩
    (rangeIndices_bounds a) (by simpa [rangeIndices] using rangeFrom_nodup a 0 0)
    (by simp [len]) (by simp [len]) (by simp [List.count_replicate]) (by simp [marked])
    (fun ia hia => by
      have := rangeIndices_bounds a ia hia
      exact index_replicate_false _ _ this.1 (by simpa [len] using this.2))
  simpa [matching] using h

theorem matching_bounds (a b : GoString) (st : MatchState) (h : matching a b = some st) :
    0 ≤ st.matched ∧ st.matched ≤ len a ∧ st.matched ≤ len b := by
  obtain ⟨st1, h1, _, hbm, hcb, hca⟩ := matching_spec a b
  rw [h] at h1
  cases h1
  have e1 : marked st.am (rangeIndices a) ≤ a.length :=
    le_trans (marked_le_length _ _) (rangeFrom_length a 0 0)
  have e2 : st.bm.count true ≤ st.bm.length := List.count_le_length _ _
  unfold len at *
  omega

/-! ## The transposition walk -/

theorem cursorLoop_spec (bm : List Bool) (lenB : Int) (hlen : len bm = lenB) :
    ∀ (n : Nat) (ib left : Int), 0 ≤ ib → (lenB - ib).toNat < n →
      1 ≤ (bm.drop ib.toNat).count true →
      ∃ j : Int, ib ≤ j ∧ j < lenB ∧ cursorLoop bm lenB n ib left = some (j, j + 1) ∧
        (bm.drop (j + 1).toNat).count true + 1 = (bm.drop ib.toNat).count true := by
  intro n
  induction n with
  | zero => intro ib left _ hn _; omega
  | succ n ih =>
    intro ib left hib hn hc
    by_cases hlt : ib < lenB
    · have hnat : ib.toNat < bm.length := by unfold len at hlen; omega
      have hsucc : (ib + 1).toNat = ib.toNat + 1 := by omega
      have hdrop : bm.drop ib.toNat = bm[ib.toNat] :: bm.drop (ib.toNat + 1) :=
        List.drop_eq_getElem_cons hnat
      have hidx : index bm ib = some bm[ib.toNat] := by
        rw [index_eq_getElem? bm ib hib (by omega), List.getElem?_eq_getElem hnat]
      cases hm : bm[ib.toNat] with
      | true =>
        refine ⟨ib, le_refl _, hlt, ?_, ?_⟩
        · simp [cursorLoop, hlt, hidx, hm]
        · rw [hdrop, hsucc, hm]; simp
      | false =>
        rw [hdrop, hm] at hc
        have hc1 : 1 ≤ (bm.drop (ib + 1).toNat).count true := by
          rw [hsucc]; simpa using hc
        obtain ⟨j, hj1, hj2, hj3, hj4⟩ := ih (ib + 1) left (by omega) (by omega) hc1
        refine ⟨j, by omega, hj2, ?_, ?_⟩
        · simp [cursorLoop, hlt, hidx, hm, hj3]
        · rw [hj4, hsucc, hdrop, hm]; simp
    · have : bm.length ≤ ib.toNat := by unfold len at hlen; omega
      rw [List.drop_eq_nil_of_le this] at hc
      simp at hc

theorem transposeLoop_spec (a b : GoString) (am bm : List Bool) (ham : len am = len a)
    (hbm : len bm = len b) :
    ∀ (R : List Int) (left t : Int), (∀ ia ∈ R, 0 ≤ ia ∧ ia < len a) → 0 ≤ left →
      marked am R ≤ (bm.drop left.toNat).count true →
      ∃ t1, transposeLoop a b am bm R left t = some t1 ∧ t ≤ t1 ∧ t1 ≤ t + marked am R := by
  intro R
  induction R with
  | nil => intro left t _ _ _; exact ⟨t, rfl, le_refl _, by simp [marked]⟩
  | cons ia rest ih =>
    intro left t hR hleft hcount
    have hia := hR ia (List.mem_cons_self _ _)
    have hrest : ∀ x ∈ rest, 0 ≤ x ∧ x < len a := fun x hx => hR x (List.mem_cons_of_mem _ hx)
    obtain ⟨m, hm⟩ := index_some am ia hia.1 (by omega)
    cases m with
    | true =>
      have hmk : marked am (ia :: rest) = marked am rest + 1 := by
        simp [marked, List.countP_cons, hm]
      rw [hmk] at hcount
      obtain ⟨j, hj1, hj2, hj3, hj4⟩ := cursorLoop_spec bm (len b) hbm
        ((len b - left).toNat + 1) left left hleft (by omega) (by omega)
      obtain ⟨x, hx⟩ := index_some a ia hia.1 hia.2
      obtain ⟨y, hy⟩ := index_some b j (by omega) hj2
      obtain ⟨t1, h1, h2, h3⟩ := ih (j + 1) (if x ≠ y then t + 1 else t) hrest (by omega)
        (by omega)
      refine ⟨t1, ?_, ?_, ?_⟩
      · simp only [transposeLoop, hm, Option.some_bind, hj3, hx, hy, if_true]
        exact h1
      · split at h2 <;> omega
      · rw [hmk]; split at h3 <;> push_cast <;> omega
    | false =>
      have hmk : marked am (ia :: rest) = marked am rest := by
        simp [marked, List.countP_cons, hm]
      rw [hmk] at hcount ⊢
      obtain ⟨t1, h1, h2, h3⟩ := ih left t hrest hleft hcount
      refine ⟨t1, ?_, h2, h3⟩
      simp only [transposeLoop, hm, Option.some_bind]
      exact h1

theorem transpositions_spec (a b : GoString) (st : MatchState) (h : matching a b = some st) :
    ∃ t, transpositions a b st = some t ∧ 0 ≤ t ∧ 2 * t ≤ st.matched := by
  obtain ⟨st1, h1, ham, hbm, hcb, hca⟩ := matching_spec a b
  rw [h] at h1
  cases h1
  obtain ⟨t1, e1, e2, e3⟩ := transposeLoop_spec a b st.am st.bm ham hbm (rangeIndices a) 0 0
    (rangeIndices_bounds a) (le_refl _) (by simp; omega)
  refine ⟨t1 / 2, by simp [transpositions, e1], by omega, by omega⟩

/-! ## The ways out of `Jaro` -/

theorem jaroOutcome_same (a : GoString) : jaroOutcome a a = some .same := by
  simp [jaroOutcome]

theorem jaroOutcome_empty (a b : GoString) (hne : a ≠ b) (he : a = [] ∨ b = []) :
    jaroOutcome a b = some .empty := by
  simp [jaroOutcome, hne, he]

theorem jaroOutcome_general (a b : GoString) (hne : a ≠ b) (ha : a ≠ []) (hb : b ≠ []) :
    ∃ st, matching a b = some st ∧ 0 ≤ st.matched ∧ st.matched ≤ len a ∧ st.matched ≤ len b ∧
      ((st.matched = 0 ∧ jaroOutcome a b = some .noMatch) ∨
       (0 < st.matched ∧ ∃ t, transpositions a b st = some t ∧ 0 ≤ t ∧ 2 * t ≤ st.matched ∧
          jaroOutcome a b = some (.fraction (scoreNum64 (len a) (len b) st.matched t)
            (scoreDen64 (len a) (len b) st.matched)))) := by
  obtain ⟨st, hst, _⟩ := matching_spec a b
  obtain ⟨h0, h1, h2⟩ := matching_bounds a b st hst
  refine ⟨st, hst, h0, h1, h2, ?_⟩
  by_cases hm : st.matched = 0
  · left
    exact ⟨hm, by simp [jaroOutcome, hne, ha, hb, hst, hm]⟩
  · right
    obtain ⟨t, ht, ht0, ht1⟩ := transpositions_spec a b st hst
    exact ⟨by omega, t, ht, ht0, ht1, by simp [jaroOutcome, hne, ha, hb, hst, hm, ht]⟩

/-! ## The score expression within the 64-bit range -/

theorem wrap64_of_fits (x : Int) (h : FitsInt64 x) : wrap64 x = x := by
  unfold FitsInt64 at h
  unfold wrap64
  omega

theorem mul_bound (x y X Y : Int) (hx : 0 ≤ x) (hxX : x ≤ X) (hy : 0 ≤ y) (hyY : y ≤ Y) :
    0 ≤ x * y ∧ x * y ≤ X * Y :=
  ⟨mul_nonneg hx hy, mul_le_mul hxX hyY hy (le_trans hx hxX)⟩

theorem len_pos_of_ne_nil {α : Type} (s : List α) (h : s ≠ []) : 0 < len s := by
  cases s with
  | nil => exact absurd rfl h
  | cons x t => unfold len; simp only [List.length_cons]; omega

theorem jaroOutcome_total (a b : GoString) : ∃ o, jaroOutcome a b = some o := by
  by_cases hab : a = b
  · subst hab
    exact ⟨_, jaroOutcome_same a⟩
  by_cases he : a = [] ∨ b = []
  · exact ⟨_, jaroOutcome_empty a b hab he⟩
  push_neg at he
  obtain ⟨st, _, _, _, _, h | ⟨_, t, _, _, _, h⟩⟩ := jaroOutcome_general a b hab he.1 he.2
  · exact ⟨_, h.2⟩
  · exact ⟨_, h⟩

theorem jaro_total (a b : GoString) : ∃ q, Jaro a b = some q := by
  obtain ⟨o, ho⟩ := jaroOutcome_total a b
  exact ⟨o.value, by simp [Jaro, ho]⟩

theorem prefixLoop_spec (a b : GoString) (limit : Int) (hA : limit ≤ len a) (hB : limit ≤ len b) :
    ∀ (n : Nat) (i pre : Int), 0 ≤ i → i ≤ limit → (limit - i).toNat < n →
      ∃ k : Int, i ≤ k ∧ k ≤ limit ∧ prefixLoop a b limit n i pre = some (pre + (k - i)) ∧
        (∀ x, i ≤ x → x < k → index a x = index b x) ∧
        (k = limit ∨ index a k ≠ index b k) := by
  intro n
  induction n with
  | zero => intro i pre _ _ hn; omega
  | succ n ih =>
    intro i pre hi hil hn
    by_cases hlt : i < limit
    · obtain ⟨x, hx⟩ := index_some a i hi (by omega)
      obtain ⟨y, hy⟩ := index_some b i hi (by omega)
      by_cases hxy : x = y
      · obtain ⟨k, hk1, hk2, hk3, hk4, hk5⟩ := ih (i + 1) (pre + 1) (by omega) (by omega) (by omega)
        refine ⟨k, by omega, hk2, ?_, ?_, hk5⟩
        · simp only [prefixLoop, hlt, if_true, hx, hy, Option.some_bind, hxy, hk3]
          congr 1; ring
        · intro z hz1 hz2
          by_cases hzi : z = i
          · rw [hzi, hx, hy, hxy]
          · exact hk4 z (by omega) hz2
      · refine ⟨i, le_refl _, hil, ?_, fun z h1 h2 => by omega, Or.inr ?_⟩
        · simp [prefixLoop, hlt, hx, hy, hxy]
        · rw [hx, hy]; simpa using hxy
    · refine ⟨i, le_refl _, hil, by simp [prefixLoop, hlt], fun x h1 h2 => by omega,
        Or.inl (by omega)⟩

theorem limit_bounds (a b : GoString) :
    0 ≤ min 4 (min (len a) (len b)) ∧ min 4 (min (len a) (len b)) ≤ 4 ∧
      min 4 (min (len a) (len b)) ≤ len a ∧ min 4 (min (len a) (len b)) ≤ len b := by
  have h1 : 0 ≤ len a := by unfold len; omega
  have h2 : 0 ≤ len b := by unfold len; omega
  unfold min
  split <;> split <;> omega

theorem prefixCount_spec (a b : GoString) :
    ∃ k : Int, prefixCount a b = some k ∧ 0 ≤ k ∧ k ≤ min 4 (min (len a) (len b)) ∧
      (∀ x, 0 ≤ x → x < k → index a x = index b x) ∧
      (k = min 4 (min (len a) (len b)) ∨ index a k ≠ index b k) := by
  obtain ⟨h0, _, hA, hB⟩ := limit_bounds a b
  obtain ⟨k, hk1, hk2, hk3, hk4, hk5⟩ := prefixLoop_spec a b _ hA hB
    ((min 4 (min (len a) (len b))).toNat + 1) 0 0 (le_refl _) h0 (by omega)
  exact ⟨k, by simpa [prefixCount] using hk3, hk1, hk2, hk4, hk5⟩

theorem jaroWinkler_eq (a b : GoString) (k : Int) (j : ℚ) (hk : prefixCount a b = some k)
    (hj : Jaro a b = some j) :
    JaroWinkler a b = some (j + (1 / 10 : ℚ) * (k : ℚ) * (1 - j)) := by
  simp [JaroWinkler, hk, hj]

theorem jaro_of_outcome (a b : GoString) (o : Outcome) (q : ℚ) (h : jaroOutcome a b = some o)
    (hq : o.value = q) : Jaro a b = some q := by
  simp [Jaro, h, hq]

theorem jaroWinkler_total (a b : GoString) :
    ∃ j w, Jaro a b = some j ∧ JaroWinkler a b = some w := by
  obtain ⟨j, hj⟩ := jaro_total a b
  obtain ⟨k, hk, _⟩ := prefixCount_spec a b
  exact ⟨j, _, hj, jaroWinkler_eq a b k j hk hj⟩

theorem index_mem {α : Type} (s : List α) (i : Int) (x : α) (h : index s i = some x) : x ∈ s := by
  obtain ⟨h0, h1⟩ := index_bounds s i x h
  rw [index_eq_getElem? s i h0 h1] at h
  exact List.getElem?_mem h

theorem matchLoop_disjoint (a b : GoString) (w : Int) (hd : ∀ c ∈ a, c ∉ b) :
    ∀ (R : List Int) (st : MatchState), (∀ ia ∈ R, 0 ≤ ia ∧ ia < len a) →
      len st.am = len a → len st.bm = len b → matchLoop a b w R st = some st := by
  intro R
  induction R with
  | nil => intro st _ _ _; rfl
  | cons ia rest ih =>
    intro st hR ham hbm
    have hia := hR ia (List.mem_cons_self _ _)
    have hright : min (ia + w + 1) (len b) ≤ len b := by unfold min; split <;> omega
    have hleft : 0 ≤ max 0 (ia - w) := by unfold max; split <;> omega
    rcases findLoop_spec a b ia _ hia.1 hia.2 hright
        ((min (ia + w + 1) (len b) - max 0 (ia - w)).toNat + 1) (max 0 (ia - w)) st hleft
        (by omega) ham hbm
      with h | ⟨j, hj1, hj2, _, hj4, _⟩
    · simp only [matchLoop, h, Option.some_bind]
      exact ih st (fun x hx => hR x (List.mem_cons_of_mem _ hx)) ham hbm
    · exfalso
      obtain ⟨x, hx⟩ := index_some a ia hia.1 hia.2
      have hxb : index b j = some x := by rw [← hj4, hx]
      exact hd x (index_mem a ia x hx) (index_mem b j x hxb)

theorem matching_disjoint (a b : GoString) (hd : ∀ c ∈ a, c ∉ b) :
    matching a b = some ⟨List.replicate a.length false, List.replicate b.length false, 0⟩ :=
  matchLoop_disjoint a b (window a b) hd (rangeIndices a) _ (rangeIndices_bounds a)
    (by simp [len]) (by simp [len])

/-- C2 (the code at an input where symmetry fails): with `a` the UTF-8 bytes of
"éxx" and `b` the single byte `0xA9`, `Jaro(a, b)` is 0 and `Jaro(b, a)` is 3/4.
The loop `for ia := range a` visits offsets 0, 2, 3 of `a` and never its byte
`0xA9` at offset 1, which the scan from `b` claims. -/
theorem Jaro_asymmetric_on_bytes :
    Jaro [0xC3, 0xA9, 0x78, 0x78] [0xA9] = some 0 ∧
      Jaro [0xA9] [0xC3, 0xA9, 0x78, 0x78] = some (3 / 4) ∧
      Jaro [0xC3, 0xA9, 0x78, 0x78] [0xA9] ≠ Jaro [0xA9] [0xC3, 0xA9, 0x78, 0x78] := by
  have h1 : Jaro [0xC3, 0xA9, 0x78, 0x78] [0xA9] = some 0 :=
    jaro_of_outcome _ _ .noMatch 0 (by decide) rfl
  have h2 : Jaro [0xA9] [0xC3, 0xA9, 0x78, 0x78] = some (3 / 4) :=
    jaro_of_outcome _ _ (.fraction 9 12) _ (by decide) (by norm_num [Outcome.value])
  refine ⟨h1, h2, ?_⟩
  rw [h1, h2]
  norm_num

/-- C4: for every string `s`, the empty one included, `Jaro(s,s) = 1` and
`JaroWinkler(s,s) = 1`. -/
theorem identity_score (s : GoString) : Jaro s s = some 1 ∧ JaroWinkler s s = some 1 := by
  have hj : Jaro s s = some 1 := jaro_of_outcome s s .same 1 (jaroOutcome_same s) rfl
  obtain ⟨k, hk, _⟩ := prefixCount_spec s s
  refine ⟨hj, ?_⟩
  rw [jaroWinkler_eq s s k 1 hk hj]
  norm_num

/-- C5: for every non-empty string `s`, `Jaro(s, "") = 0` and `Jaro("", s) = 0`;
and `Jaro("", "") = 1`, the equality case being tested first. -/
theorem Jaro_empty (s : GoString) (hs : s ≠ []) :
    Jaro s [] = some 0 ∧ Jaro [] s = some 0 ∧ Jaro [] [] = some 1 :=
  ⟨jaro_of_outcome s [] .empty 0 (jaroOutcome_empty s [] hs (Or.inr rfl)) rfl,
   jaro_of_outcome [] s .empty 0 (jaroOutcome_empty [] s (Ne.symm hs) (Or.inl rfl)) rfl,
   jaro_of_outcome [] [] .same 1 (jaroOutcome_same []) rfl⟩

/-- Witness of C5 at the one-byte string "A". -/
theorem Jaro_empty_witness :
    ascii "A" ≠ [] ∧ Jaro (ascii "A") [] = some 0 ∧ Jaro [] (ascii "A") = some 0 ∧
      Jaro [] [] = some 1 :=
  ⟨by decide, Jaro_empty (ascii "A") (by decide)⟩

/-- C6: for non-empty strings `a` and `b` such that no byte of `a` occurs in
`b`, `Jaro(a,b) = 0` and `JaroWinkler(a,b) = 0`. -/
theorem disjoint_score (a b : GoString) (ha : a ≠ []) (hb : b ≠ []) (hd : ∀ c ∈ a, c ∉ b) :
    Jaro a b = some 0 ∧ JaroWinkler a b = some 0 := by
  have hla := len_pos_of_ne_nil a ha
  have hlb := len_pos_of_ne_nil b hb
  have hne : a ≠ b := by
    intro e
    obtain ⟨x, hx⟩ := index_some a 0 (le_refl _) hla
    exact hd x (index_mem a 0 x hx) (e ▸ index_mem a 0 x hx)
  have hj : Jaro a b = some 0 :=
    jaro_of_outcome a b .noMatch 0
      (by simp [jaroOutcome, hne, ha, hb, matching_disjoint a b hd]) rfl
  obtain ⟨k, hk, hk0, _, hk2, _⟩ := prefixCount_spec a b
  have hk00 : k = 0 := by
    by_contra hkne
    obtain ⟨x, hx⟩ := index_some a 0 (le_refl _) hla
    have hxb : index b 0 = some x := by rw [← hk2 0 (le_refl _) (by omega), hx]
    exact hd x (index_mem a 0 x hx) (index_mem b 0 x hxb)
  subst hk00
  refine ⟨hj, ?_⟩
  rw [jaroWinkler_eq a b 0 0 hk hj]
  norm_num

/-- Witness of C6 at the rows of the test tables with no common byte. -/
theorem disjoint_score_witness :
    (Jaro (ascii "A") (ascii "B") = some 0 ∧ JaroWinkler (ascii "A") (ascii "B") = some 0) ∧
    (Jaro (ascii "-") (ascii "ABC") = some 0 ∧ JaroWinkler (ascii "-") (ascii "ABC") = some 0) ∧
    (Jaro (ascii "ABCD") (ascii "-") = some 0 ∧ JaroWinkler (ascii "ABCD") (ascii "-") = some 0) ∧
    (Jaro (ascii "billy") (ascii "susan") = some 0 ∧
      JaroWinkler (ascii "billy") (ascii "susan") = some 0) :=
  ⟨disjoint_score _ _ (by decide) (by decide) (by decide),
   disjoint_score _ _ (by decide) (by decide) (by decide),
   disjoint_score _ _ (by decide) (by decide) (by decide),
   disjoint_score _ _ (by decide) (by decide) (by decide)⟩

/-- C8: for all strings `a` and `b`, with `j = Jaro(a,b)` and `L` the length of
their longest common prefix, `JaroWinkler(a,b) = j + (1/10) * min(4, L) * (1 - j)`. -/
theorem JaroWinkler_formula (a b : GoString) (L : Nat) (hL : IsLongestCommonPrefixLen a b L) :
    ∃ j, Jaro a b = some j ∧
      JaroWinkler a b = some (j + (1 / 10 : ℚ) * ((Nat.min 4 L : Nat) : ℚ) * (1 - j)) := by
  obtain ⟨j, hj⟩ := jaro_total a b
  obtain ⟨k, hk, hk0, hk1, hk2, hk3⟩ := prefixCount_spec a b
  obtain ⟨_, hl4, hlA, hlB⟩ := limit_bounds a b
  obtain ⟨⟨hLa, hLb, hLeq⟩, hLmax⟩ := hL
  have hkA : k ≤ (a.length : Int) := le_trans hk1 hlA
  have hkB : k ≤ (b.length : Int) := le_trans hk1 hlB
  have hcp : IsCommonPrefixLen a b k.toNat := by
    refine ⟨by omega, by omega, fun i hi => ?_⟩
    have := hk2 (i : Int) (by omega) (by omega)
    rwa [index_eq_getElem? a _ (by omega) (by unfold len; omega),
      index_eq_getElem? b _ (by omega) (by unfold len; omega), Int.toNat_ofNat] at this
  have hkL : k.toNat ≤ L := hLmax _ hcp
  have hLk : (Nat.min 4 L : Int) ≤ k := by
    rcases hk3 with h | h
    · rw [h]
      unfold len min
      simp only [Nat.min_def]
      split <;> split <;> split <;> omega
    · have : ¬ (k.toNat < L) := by
        intro hlt
        apply h
        have := hLeq k.toNat hlt
        rwa [← index_eq_getElem? a k hk0 (by unfold len; omega),
          ← index_eq_getElem? b k hk0 (by unfold len; omega)] at this
      simp only [Nat.min_def]
      split <;> omega
  have hkeq : k = ((Nat.min 4 L : Nat) : Int) := by
    simp only [Nat.min_def] at hLk ⊢
    split at hLk <;> split <;> omega
  refine ⟨j, hj, ?_⟩
  rw [jaroWinkler_eq a b k j hk hj, hkeq]
  norm_cast

/-- Witness of C8 at ("SHACKLEFORD", "SHACKELFORD"), whose longest common
prefix has length 5. -/
theorem JaroWinkler_formula_witness :
    IsLongestCommonPrefixLen (ascii "SHACKLEFORD") (ascii "SHACKELFORD") 5 ∧
    ∃ j, Jaro (ascii "SHACKLEFORD") (ascii "SHACKELFORD") = some j ∧
      JaroWinkler (ascii "SHACKLEFORD") (ascii "SHACKELFORD") =
        some (j + (1 / 10 : ℚ) * ((Nat.min 4 5 : Nat) : ℚ) * (1 - j)) :=
  have hL : IsLongestCommonPrefixLen (ascii "SHACKLEFORD") (ascii "SHACKELFORD") 5 :=
    ⟨⟨by decide, by decide, by decide⟩, fun k hk => by
      by_contra hlt
      have h5 := hk.2.2 5 (by omega)
      revert h5
      decide⟩
  ⟨hL, JaroWinkler_formula _ _ 5 hL⟩

/-- C9: for all strings `a` and `b`, no index expression of `Jaro` or
`JaroWinkler` is out of range: both calls return (an index out of range would
be a panic); every `ib` of a window `[left, right)` of the matching pass is in
`[0, len(b))`; after any matching pass the transposition walk, with its read of
`b[ib]` after the cursor search, runs to its end; and every `i` below the
limit of the prefix loop is below `len(a)` and `len(b)`. -/
theorem index_in_range (a b : GoString) :
    (Jaro a b).isSome ∧ (JaroWinkler a b).isSome ∧
    (∀ ia ib : Int, max 0 (ia - window a b) ≤ ib →
      ib < min (ia + window a b + 1) (len b) → 0 ≤ ib ∧ ib < len b) ∧
    (∀ st, matching a b = some st → (transpositions a b st).isSome) ∧
    (∀ i : Int, i < min 4 (min (len a) (len b)) → i < len a ∧ i < len b) := by
  obtain ⟨j, w, hj, hw⟩ := jaroWinkler_total a b
  refine ⟨by simp [hj], by simp [hw], ?_, ?_, ?_⟩
  · intro ia ib h1 h2
    unfold max at h1
    unfold min at h2
    split at h1 <;> split at h2 <;> omega
  · intro st hst
    obtain ⟨t, ht, _⟩ := transpositions_spec a b st hst
    simp [ht]
  · intro i hi
    obtain ⟨_, _, hA, hB⟩ := limit_bounds a b
    omega

/-- Witness of C9 at ("DIXON", "DICKSONX"): window 3, so `ia = 4` scans
`ib` in `[1, 8)`. -/
theorem index_in_range_witness :
    (Jaro (ascii "DIXON") (ascii "DICKSONX")).isSome ∧
    (JaroWinkler (ascii "DIXON") (ascii "DICKSONX")).isSome ∧
    (0 ≤ (7 : Int) ∧ (7 : Int) < len (ascii "DICKSONX")) ∧
    (transpositions (ascii "DIXON") (ascii "DICKSONX")
      ⟨[true, true, false, true, true],
        [true, true, false, false, false, true, true, false], 4⟩).isSome ∧
    ((3 : Int) < len (ascii "DIXON") ∧ (3 : Int) < len (ascii "DICKSONX")) :=
  have h := index_in_range (ascii "DIXON") (ascii "DICKSONX")
  ⟨h.1, h.2.1, h.2.2.1 4 7 (by decide) (by decide), h.2.2.2.1 _ (by decide),
    h.2.2.2.2 3 (by decide)⟩

theorem jaroWinkler_of (a b : GoString) (k : Int) (j w : ℚ) (hk : prefixCount a b = some k)
    (hj : Jaro a b = some j) (hw : winklerScore j k = w) : JaroWinkler a b = some w := by
  rw [jaroWinkler_eq a b k j hk hj, ← hw]
  rfl

/-- C11: the exact values of the spec's concrete scenarios. -/
theorem concrete_scenarios :
    Jaro (ascii "MARTHA") (ascii "MARHTA") = some (17 / 18) ∧
    JaroWinkler (ascii "MARTHA") (ascii "MARHTA") = some (173 / 180) ∧
    Jaro (ascii "DIXON") (ascii "DICKSONX") = some (23 / 30) ∧
    JaroWinkler (ascii "DIXON") (ascii "DICKSONX") = some (61 / 75) ∧
    Jaro (ascii "JON") (ascii "JAN") = some (7 / 9) ∧
    Jaro (ascii "--") (ascii "-") = some (5 / 6) ∧
    JaroWinkler (ascii "--") (ascii "-") = some (17 / 20) ∧
    Jaro (ascii "A") (ascii "B") = some 0 ∧
    JaroWinkler (ascii "A") (ascii "B") = some 0 := by
  have m1 : Jaro (ascii "MARTHA") (ascii "MARHTA") = some (17 / 18) :=
    jaro_of_outcome _ _ (.fraction 612 648) _ (by decide) (by norm_num [Outcome.value])
  have d1 : Jaro (ascii "DIXON") (ascii "DICKSONX") = some (23 / 30) :=
    jaro_of_outcome _ _ (.fraction 368 480) _ (by decide) (by norm_num [Outcome.value])
  have j1 : Jaro (ascii "JON") (ascii "JAN") = some (7 / 9) :=
    jaro_of_outcome _ _ (.fraction 42 54) _ (by decide) (by norm_num [Outcome.value])
  have h1 : Jaro (ascii "--") (ascii "-") = some (5 / 6) :=
    jaro_of_outcome _ _ (.fraction 5 6) _ (by decide) (by norm_num [Outcome.value])
  have a1 : Jaro (ascii "A") (ascii "B") = some 0 :=
    jaro_of_outcome _ _ .noMatch 0 (by decide) rfl
  refine ⟨m1, ?_, d1, ?_, j1, h1, ?_, a1, ?_⟩
  · exact jaroWinkler_of _ _ 3 _ _ (by decide) m1 (by norm_num [winklerScore])
  · exact jaroWinkler_of _ _ 2 _ _ (by decide) d1 (by norm_num [winklerScore])
  · exact jaroWinkler_of _ _ 1 _ _ (by decide) h1 (by norm_num [winklerScore])
  · exact jaroWinkler_of _ _ 0 _ _ (by decide) a1 (by norm_num [winklerScore])

/-- C12 (the code at an input where symmetry fails): with `a` the UTF-8 bytes
of "éxx" and `b` the single byte `0xA9`, `JaroWinkler(a, b)` is 0 and
`JaroWinkler(b, a)` is 3/4; the two strings share no first byte, so the prefix
count is 0 both ways and the difference is the one of `Jaro`. -/
theorem JaroWinkler_asymmetric_on_bytes :
    JaroWinkler [0xC3, 0xA9, 0x78, 0x78] [0xA9] = some 0 ∧
      JaroWinkler [0xA9] [0xC3, 0xA9, 0x78, 0x78] = some (3 / 4) ∧
      JaroWinkler [0xC3, 0xA9, 0x78, 0x78] [0xA9] ≠
        JaroWinkler [0xA9] [0xC3, 0xA9, 0x78, 0x78] := by
  have h1 : JaroWinkler [0xC3, 0xA9, 0x78, 0x78] [0xA9] = some 0 :=
    jaroWinkler_of _ _ 0 0 _ (by decide)
      (jaro_of_outcome _ _ .noMatch 0 (by decide) rfl) (by norm_num [winklerScore])
  have h2 : JaroWinkler [0xA9] [0xC3, 0xA9, 0x78, 0x78] = some (3 / 4) :=
    jaroWinkler_of _ _ 0 (3 / 4) _ (by decide)
      (jaro_of_outcome _ _ (.fraction 9 12) _ (by decide) (by norm_num [Outcome.value]))
      (by norm_num [winklerScore])
  refine ⟨h1, h2, ?_⟩
  rw [h1, h2]
  norm_num

theorem winklerScore_mono (j : ℚ) (p p2 : Int) (hj1 : j ≤ 1) (hpp : p ≤ p2) :
    winklerScore j p ≤ winklerScore j p2 := by
  unfold winklerScore
  have h1 : (p : ℚ) ≤ (p2 : ℚ) := by exact_mod_cast hpp
  have h2 : (0 : ℚ) ≤ 1 - j := by linarith
  have h3 : (1 / 10 : ℚ) * (p : ℚ) * (1 - j) ≤ (1 / 10 : ℚ) * (p2 : ℚ) * (1 - j) :=
    mul_le_mul_of_nonneg_right (by linarith) h2
  linarith

/-- C13: for a base score `j` in `[0, 1]` and prefix counts `p ≤ p2 ≤ 4`,
`j + (1/10)*p*(1 - j) ≤ j + (1/10)*p2*(1 - j)`; and of two input pairs with
the same `Jaro` score `j` and prefix counts `p` and `p2`, `JaroWinkler` returns
these two values, so the pair with the longer counted prefix scores at least as
much. -/
theorem prefix_monotone (j : ℚ) (p p2 : Int) (_hj0 : 0 ≤ j) (hj1 : j ≤ 1) (hpp : p ≤ p2)
    (_hp4 : p2 ≤ 4) :
    j + (1 / 10 : ℚ) * (p : ℚ) * (1 - j) ≤ j + (1 / 10 : ℚ) * (p2 : ℚ) * (1 - j) ∧
    ∀ a b a2 b2 : GoString, Jaro a b = some j → Jaro a2 b2 = some j →
      prefixCount a b = some p → prefixCount a2 b2 = some p2 →
      ∃ w w2, JaroWinkler a b = some w ∧ JaroWinkler a2 b2 = some w2 ∧ w ≤ w2 := by
  have hmono := winklerScore_mono j p p2 hj1 hpp
  refine ⟨hmono, fun a b a2 b2 h1 h2 h3 h4 => ?_⟩
  exact ⟨_, _, jaroWinkler_of a b p j _ h3 h1 rfl, jaroWinkler_of a2 b2 p2 j _ h4 h2 rfl, hmono⟩

/-- Witness of C13: ("JERALDINE", "GERALDINE") and ("NICHLESON", "NICHULSON")
both have `Jaro` score 25/27, with prefix counts 0 and 4. -/
theorem prefix_monotone_witness :
    (25 / 27 : ℚ) + (1 / 10 : ℚ) * ((0 : Int) : ℚ) * (1 - 25 / 27) ≤
      25 / 27 + (1 / 10 : ℚ) * ((4 : Int) : ℚ) * (1 - 25 / 27) ∧
    ∃ w w2, JaroWinkler (ascii "JERALDINE") (ascii "GERALDINE") = some w ∧
      JaroWinkler (ascii "NICHLESON") (ascii "NICHULSON") = some w2 ∧ w ≤ w2 :=
  have h := prefix_monotone (25 / 27) 0 4 (by norm_num) (by norm_num) (by decide) (by decide)
  ⟨h.1, h.2 (ascii "JERALDINE") (ascii "GERALDINE") (ascii "NICHLESON") (ascii "NICHULSON")
    (jaro_of_outcome _ _ (.fraction 1800 1944) _ (by decide) (by norm_num [Outcome.value]))
    (jaro_of_outcome _ _ (.fraction 1800 1944) _ (by decide) (by norm_num [Outcome.value]))
    (by decide) (by decide)⟩

theorem score_fits (A B m t : Int) (hA0 : 0 ≤ A) (hA : A ≤ 1000000) (hB0 : 0 ≤ B)
    (hB : B ≤ 1000000) (hm0 : 0 ≤ m) (hmA : m ≤ A) (ht0 : 0 ≤ t) (htm : t ≤ m) :
    FitsInt64 (m * m) ∧ FitsInt64 (A + B) ∧ FitsInt64 (m * m * (A + B)) ∧
    FitsInt64 (A * B) ∧ FitsInt64 (m - t) ∧ FitsInt64 (A * B * (m - t)) ∧
    FitsInt64 (m * m * (A + B) + A * B * (m - t)) ∧
    FitsInt64 (3 * A) ∧ FitsInt64 (3 * A * B) ∧ FitsInt64 (3 * A * B * m) := by
  have hm : m ≤ 1000000 := le_trans hmA hA
  have h1 := mul_bound m m 1000000 1000000 hm0 hm hm0 hm
  have h2 := mul_bound (m * m) (A + B) (1000000 * 1000000) 2000000 h1.1 h1.2 (by omega) (by omega)
  have h3 := mul_bound A B 1000000 1000000 hA0 hA hB0 hB
  have h4 := mul_bound (A * B) (m - t) (1000000 * 1000000) 1000000 h3.1 h3.2 (by omega) (by omega)
  have h5 := mul_bound (3 * A) B 3000000 1000000 (by omega) (by omega) hB0 hB
  have h6 := mul_bound (3 * A * B) m (3000000 * 1000000) 1000000 h5.1 h5.2 hm0 hm
  norm_num at h1 h2 h3 h4 h5 h6
  unfold FitsInt64
  norm_num
  refine ⟨⟨h1.1, ?_⟩, ⟨?_, ?_⟩, ⟨h2.1, ?_⟩, ⟨h3.1, ?_⟩, ⟨?_, ?_⟩, ⟨h4.1, ?_⟩, ⟨?_, ?_⟩, ⟨?_, ?_⟩,
    ⟨h5.1, ?_⟩, ⟨h6.1, ?_⟩⟩ <;> omega

/-- C18: for strings of at most 1000000 bytes each, every intermediate integer
of the score expression lies in `[0, 2^63)`, so the 64-bit dividend and divisor
are the exact ones. -/
theorem score_no_wrap (a b : GoString) (st : MatchState) (t : Int) (hA : len a ≤ 1000000)
    (hB : len b ≤ 1000000) (hst : matching a b = some st)
    (ht : transpositions a b st = some t) :
    FitsInt64 (st.matched * st.matched) ∧ FitsInt64 (len a + len b) ∧
    FitsInt64 (st.matched * st.matched * (len a + len b)) ∧
    FitsInt64 (len a * len b) ∧ FitsInt64 (st.matched - t) ∧
    FitsInt64 (len a * len b * (st.matched - t)) ∧
    FitsInt64 (st.matched * st.matched * (len a + len b) + len a * len b * (st.matched - t)) ∧
    FitsInt64 (3 * len a) ∧ FitsInt64 (3 * len a * len b) ∧
    FitsInt64 (3 * len a * len b * st.matched) ∧
    scoreNum64 (len a) (len b) st.matched t = scoreNum (len a) (len b) st.matched t ∧
    scoreDen64 (len a) (len b) st.matched = scoreDen (len a) (len b) st.matched := by
  obtain ⟨hm0, hmA, _⟩ := matching_bounds a b st hst
  obtain ⟨t1, ht1, ht0, htm⟩ := transpositions_spec a b st hst
  rw [ht] at ht1
  cases ht1
  have hA0 : 0 ≤ len a := by unfold len; omega
  have hB0 : 0 ≤ len b := by unfold len; omega
  have h := score_fits (len a) (len b) st.matched t hA0 hA hB0 hB hm0 hmA ht0 (by omega)
  obtain ⟨f1, f2, f3, f4, f5, f6, f7, f8, f9, f10⟩ := h
  refine ⟨f1, f2, f3, f4, f5, f6, f7, f8, f9, f10, ?_, ?_⟩
  · unfold scoreNum64 scoreNum
    rw [wrap64_of_fits _ f1, wrap64_of_fits _ f2, wrap64_of_fits _ f3, wrap64_of_fits _ f4,
      wrap64_of_fits _ f5, wrap64_of_fits _ f6, wrap64_of_fits _ f7]
  · unfold scoreDen64 scoreDen
    rw [wrap64_of_fits _ f8, wrap64_of_fits _ f9, wrap64_of_fits _ f10]


/-- Witness of C18 at ("aaaaaabc", "aaaaaabd"): dividend 1232, divisor 1344. -/
theorem score_no_wrap_witness :
    len (ascii "aaaaaabc") ≤ 1000000 ∧ len (ascii "aaaaaabd") ≤ 1000000 ∧
    scoreNum64 (len (ascii "aaaaaabc")) (len (ascii "aaaaaabd")) 7 0 = 1232 ∧
    scoreDen64 (len (ascii "aaaaaabc")) (len (ascii "aaaaaabd")) 7 = 1344 := by
  have h := score_no_wrap (ascii "aaaaaabc") (ascii "aaaaaabd")
    ⟨[true, true, true, true, true, true, true, false],
      [true, true, true, true, true, true, true, false], 7⟩ 0
    (by decide) (by decide) (by decide) (by decide)
  refine ⟨by decide, by decide, ?_, ?_⟩
  · rw [h.2.2.2.2.2.2.2.2.2.2.1]; decide
  · rw [h.2.2.2.2.2.2.2.2.2.2.2]; decide

/-! ## The matched characters -/

theorem matchedChars_length (s : GoString) (m : List Bool) (h : m.length ≤ s.length) :
    (matchedChars s m).length = m.count true := by
  induction s generalizing m with
  | nil =>
    cases m with
    | nil => simp [matchedChars]
    | cons f m1 => simp at h
  | cons c s1 ih =>
    cases m with
    | nil => simp [matchedChars]
    | cons f m1 =>
      have := ih m1 (by simpa using h)
      cases f <;> simp [matchedChars, this]

theorem matchedChars_count_set (s : GoString) (m : List Bool) (i x v : Nat)
    (hs : s[i]? = some x) (hm : m[i]? = some false) :
    (matchedChars s (m.set i true)).count v =
      (matchedChars s m).count v + if x = v then 1 else 0 := by
  induction s generalizing m i with
  | nil => simp at hs
  | cons c s1 ih =>
    cases m with
    | nil => simp at hm
    | cons f m1 =>
      cases i with
      | zero =>
        simp at hs hm
        subst hs hm
        simp [matchedChars, List.count_cons]
      | succ i1 =>
        simp at hs hm
        have := ih m1 i1 hs hm
        cases f
        · simpa [matchedChars] using this
        · simp only [List.set_cons_succ, matchedChars, List.count_cons, this]
          omega

theorem matchLoop_frame (a b : GoString) (w : Int) :
    ∀ (R : List Int) (st st1 : MatchState),
      (∀ ia ∈ R, 0 ≤ ia ∧ ia < len a) → R.Nodup →
      len st.am = len a → len st.bm = len b →
      (∀ ia ∈ R, index st.am ia = some false) →
      (st.am.count true : Int) = st.matched →
      (∀ v, (matchedChars a st.am).count v = (matchedChars b st.bm).count v) →
      matchLoop a b w R st = some st1 →
      (st1.am.count true : Int) = st1.matched ∧
      (∀ v, (matchedChars a st1.am).count v = (matchedChars b st1.bm).count v) ∧
      ∀ i, index st1.am i = some true → index st.am i = some true ∨ i ∈ R := by
  intro R
  induction R with
  | nil =>
    intro st st1 _ _ _ _ _ hc hp h
    simp only [matchLoop, Option.some.injEq] at h
    subst h
    exact ⟨hc, hp, fun i hi => Or.inl hi⟩
  | cons ia rest ih =>
    intro st st1 hR hnd ham hbm hfalse hc hp h
    have hia := hR ia (List.mem_cons_self _ _)
    have hright : min (ia + w + 1) (len b) ≤ len b := by unfold min; split <;> omega
    have hleft : 0 ≤ max 0 (ia - w) := by unfold max; split <;> omega
    have hrest : ∀ x ∈ rest, 0 ≤ x ∧ x < len a := fun x hx => hR x (List.mem_cons_of_mem _ hx)
    have hiaR : ia ∉ rest := (List.nodup_cons.mp hnd).1
    have hndr : rest.Nodup := (List.nodup_cons.mp hnd).2
    have hfia : index st.am ia = some false := hfalse ia (List.mem_cons_self _ _)
    rcases findLoop_spec a b ia _ hia.1 hia.2 hright
        ((min (ia + w + 1) (len b) - max 0 (ia - w)).toNat + 1) (max 0 (ia - w)) st hleft
        (by omega) ham hbm
      with hf | ⟨j, hj1, hj2, hj3, hj4, hf⟩
    · simp only [matchLoop, hf, Option.some_bind] at h
      obtain ⟨r1, r2, r3⟩ := ih st st1 hrest hndr ham hbm
        (fun x hx => hfalse x (List.mem_cons_of_mem _ hx)) hc hp h
      refine ⟨r1, r2, fun i hi => ?_⟩
      rcases r3 i hi with e | e
      · exact Or.inl e
      · exact Or.inr (List.mem_cons_of_mem _ e)
    · simp only [matchLoop, hf, Option.some_bind] at h
      have hjb := index_bounds _ _ _ hj3
      have hbmj : st.bm[j.toNat]? = some false := by
        rw [← index_eq_getElem? st.bm j hjb.1 hjb.2]; exact hj3
      have hamia : st.am[ia.toNat]? = some false := by
        rw [← index_eq_getElem? st.am ia hia.1 (by omega)]; exact hfia
      obtain ⟨x, hx⟩ := index_some a ia hia.1 hia.2
      have hxa : a[ia.toNat]? = some x := by
        rw [← index_eq_getElem? a ia hia.1 hia.2]; exact hx
      have hxb : b[j.toNat]? = some x := by
        rw [← index_eq_getElem? b j hjb.1 (by omega), ← hj4]; exact hx
      obtain ⟨r1, r2, r3⟩ := ih
        ⟨st.am.set ia.toNat true, st.bm.set j.toNat true, st.matched + 1⟩ st1 hrest hndr
        (by simpa [len_set] using ham) (by simpa [len_set] using hbm)
        (fun y hy => by
          have hne : y ≠ ia := fun e => hiaR (e ▸ hy)
          simp only
          rw [index_set_ne st.am ia y true hia.1 hne]
          exact hfalse y (List.mem_cons_of_mem _ hy))
        (by simp only; rw [count_set_true _ _ hamia]; push_cast; omega)
        (fun v => by
          simp only
          rw [matchedChars_count_set a st.am ia.toNat x v hxa hamia,
            matchedChars_count_set b st.bm j.toNat x v hxb hbmj, hp v])
        h
      refine ⟨r1, r2, fun i hi => ?_⟩
      rcases r3 i hi with e | e
      · by_cases hii : i = ia
        · exact Or.inr (hii ▸ List.mem_cons_self _ _)
        · simp only at e
          rw [index_set_ne st.am ia i true hia.1 hii] at e
          exact Or.inl e
      · exact Or.inr (List.mem_cons_of_mem _ e)

theorem matchedChars_replicate_false (s : GoString) (n : Nat) :
    matchedChars s (List.replicate n false) = [] := by
  induction s generalizing n with
  | nil => cases n <;> simp [matchedChars, List.replicate]
  | cons c s1 ih =>
    cases n with
    | zero => simp [matchedChars]
    | succ n1 => simp [matchedChars, List.replicate, ih]

theorem matching_chars (a b : GoString) (st : MatchState) (h : matching a b = some st) :
    len st.am = len a ∧ len st.bm = len b ∧
    (st.am.count true : Int) = st.matched ∧ (st.bm.count true : Int) = st.matched ∧
    (∀ v, (matchedChars a st.am).count v = (matchedChars b st.bm).count v) ∧
    ∀ i, index st.am i = some true → i ∈ rangeIndices a := by
  obtain ⟨st1, h1, ham, hbm, hcb, _⟩ := matching_spec a b
  rw [h] at h1
  cases h1
  have hinit : ∀ ia ∈ rangeIndices a, index (List.replicate a.length false) ia = some false :=
    fun ia hia => by
      have := rangeIndices_bounds a ia hia
      exact index_replicate_false _ _ this.1 (by simpa [len] using this.2)
  obtain ⟨r1, r2, r3⟩ := matchLoop_frame a b (window a b) (rangeIndices a)
    ⟨List.replicate a.length false, List.replicate b.length false, 0⟩ st
    (rangeIndices_bounds a) (rangeFrom_nodup a 0 0) (by simp [len]) (by simp [len]) hinit
    (by simp [List.count_replicate])
    (fun v => by simp [matchedChars_replicate_false]) h
  refine ⟨ham, hbm, r1, hcb, r2, fun i hi => ?_⟩
  rcases r3 i hi with e | e
  · exfalso
    simp only at e
    have hb := index_bounds _ _ _ e
    rw [index_replicate_false _ _ hb.1 (by simpa [len] using hb.2)] at e
    simp at e
  · exact e

/-- On the index values of `range`, the marked bytes of `a` are its matched
characters, when nothing is marked outside those index values. -/
theorem rangeFrom_markedChar (a : GoString) (am : List Bool) :
    ∀ (s : GoString) (ms : List Bool) (skip : Nat) (k : Int),
      (∀ i : Nat, index a (k + i) = s[i]?) → (∀ i : Nat, index am (k + i) = ms[i]?) →
      ms.length = s.length →
      (∀ i : Nat, ms[i]? = some true → (k + (i : Int)) ∈ rangeFrom s skip k) →
      (rangeFrom s skip k).filterMap (markedChar a am) = matchedChars s ms := by
  intro s
  induction s with
  | nil =>
    intro ms skip k _ _ hlen _
    have : ms = [] := List.length_eq_zero.mp (by simpa using hlen)
    subst this
    simp [rangeFrom, matchedChars]
  | cons c rest ih =>
    intro ms skip k ha hm hlen hin
    cases ms with
    | nil => simp at hlen
    | cons m0 ms1 =>
      have ha0 : index a k = some c := by simpa using ha 0
      have hm0 : index am k = some m0 := by simpa using hm 0
      have ha1 : ∀ i : Nat, index a (k + 1 + i) = rest[i]? := fun i => by
        have := ha (i + 1)
        simp only [List.getElem?_cons_succ] at this
        rw [← this]; congr 1; push_cast; ring
      have hm1 : ∀ i : Nat, index am (k + 1 + i) = ms1[i]? := fun i => by
        have := hm (i + 1)
        simp only [List.getElem?_cons_succ] at this
        rw [← this]; congr 1; push_cast; ring
      have hlen1 : ms1.length = rest.length := by simpa using hlen
      cases skip with
      | zero =>
        have hin1 : ∀ i : Nat, ms1[i]? = some true →
            (k + 1 + (i : Int)) ∈ rangeFrom rest (runeWidth (c :: rest) - 1) (k + 1) := fun i hi => by
          have := hin (i + 1) (by simpa using hi)
          simp only [rangeFrom, List.mem_cons] at this
          rcases this with e | e
          · push_cast at e; omega
          · have e2 : k + ((i + 1 : Nat) : Int) = k + 1 + (i : Int) := by push_cast; ring
            rwa [e2] at e
        have hrec := ih ms1 (runeWidth (c :: rest) - 1) (k + 1) ha1 hm1 hlen1 hin1
        cases m0 <;> simp [rangeFrom, markedChar, hm0, ha0, matchedChars, hrec]
      | succ skip1 =>
        have hin1 : ∀ i : Nat, ms1[i]? = some true →
            (k + 1 + (i : Int)) ∈ rangeFrom rest skip1 (k + 1) := fun i hi => by
          have := hin (i + 1) (by simpa using hi)
          simp only [rangeFrom] at this
          have e2 : k + ((i + 1 : Nat) : Int) = k + 1 + (i : Int) := by push_cast; ring
          rwa [e2] at this
        have hrec := ih ms1 skip1 (k + 1) ha1 hm1 hlen1 hin1
        have hm0f : m0 = false := by
          cases m0 with
          | false => rfl
          | true =>
            exfalso
            have := hin 0 (by simp)
            simp only [rangeFrom] at this
            have := rangeFrom_bounds rest skip1 (k + 1) _ this
            push_cast at this; omega
        subst hm0f
        simp [rangeFrom, matchedChars, hrec]

theorem index_zero_add {α : Type} (s : List α) (i : Nat) : index s (0 + (i : Int)) = s[i]? := by
  unfold index len
  by_cases h : i < s.length
  · have h2 : (0 : Int) ≤ 0 + (i : Int) ∧ 0 + (i : Int) < (s.length : Int) := by omega
    simp [h2]
  · have h2 : ¬ ((0 : Int) ≤ 0 + (i : Int) ∧ 0 + (i : Int) < (s.length : Int)) := by omega
    simp [h2, List.getElem?_eq_none (by omega : s.length ≤ i)]

theorem rangeIndices_markedChar (a b : GoString) (st : MatchState)
    (h : matching a b = some st) :
    (rangeIndices a).filterMap (markedChar a st.am) = matchedChars a st.am := by
  obtain ⟨ham, _, _, _, _, hin⟩ := matching_chars a b st h
  refine rangeFrom_markedChar a st.am a st.am 0 0 (index_zero_add a) (index_zero_add st.am)
    (by unfold len at ham; omega) (fun i hi => ?_)
  apply hin
  rw [index_zero_add]
  exact hi

theorem cursorLoop_chars (b : GoString) (bm : List Bool) (hlen : len bm = len b) :
    ∀ (n : Nat) (ib left : Int), 0 ≤ ib → (len b - ib).toNat < n →
      1 ≤ (matchedChars (b.drop ib.toNat) (bm.drop ib.toNat)).length →
      ∃ (j : Int) (y : Nat), ib ≤ j ∧ j < len b ∧
        cursorLoop bm (len b) n ib left = some (j, j + 1) ∧ index b j = some y ∧
        matchedChars (b.drop ib.toNat) (bm.drop ib.toNat) =
          y :: matchedChars (b.drop (j + 1).toNat) (bm.drop (j + 1).toNat) := by
  intro n
  induction n with
  | zero => intro ib left _ hn _; omega
  | succ n ih =>
    intro ib left hib hn hc
    by_cases hlt : ib < len b
    · have hnb : ib.toNat < b.length := by unfold len at hlt; omega
      have hnm : ib.toNat < bm.length := by unfold len at hlen hlt; omega
      have hsucc : (ib + 1).toNat = ib.toNat + 1 := by omega
      have hdb : b.drop ib.toNat = b[ib.toNat] :: b.drop (ib.toNat + 1) :=
        List.drop_eq_getElem_cons hnb
      have hdm : bm.drop ib.toNat = bm[ib.toNat] :: bm.drop (ib.toNat + 1) :=
        List.drop_eq_getElem_cons hnm
      have hidx : index bm ib = some bm[ib.toNat] := by
        rw [index_eq_getElem? bm ib hib (by omega), List.getElem?_eq_getElem hnm]
      have hidb : index b ib = some b[ib.toNat] := by
        rw [index_eq_getElem? b ib hib hlt, List.getElem?_eq_getElem hnb]
      cases hm : bm[ib.toNat] with
      | true =>
        refine ⟨ib, b[ib.toNat], le_refl _, hlt, ?_, hidb, ?_⟩
        · simp [cursorLoop, hlt, hidx, hm]
        · rw [hdb, hdm, hsucc, hm]; simp [matchedChars]
      | false =>
        have hstep : matchedChars (b.drop ib.toNat) (bm.drop ib.toNat) =
            matchedChars (b.drop (ib + 1).toNat) (bm.drop (ib + 1).toNat) := by
          rw [hdb, hdm, hsucc, hm]; simp [matchedChars]
        rw [hstep] at hc
        obtain ⟨j, y, hj1, hj2, hj3, hj4, hj5⟩ := ih (ib + 1) left (by omega) (by omega) hc
        refine ⟨j, y, by omega, hj2, ?_, hj4, ?_⟩
        · simp [cursorLoop, hlt, hidx, hm, hj3]
        · rw [hstep, hj5]
    · exfalso
      have : b.length ≤ ib.toNat := by unfold len at hlt; omega
      rw [List.drop_eq_nil_of_le this] at hc
      simp [matchedChars] at hc

theorem transposeLoop_chars (a b : GoString) (am bm : List Bool) (ham : len am = len a)
    (hbm : len bm = len b) :
    ∀ (R : List Int) (left t : Int), (∀ ia ∈ R, 0 ≤ ia ∧ ia < len a) → 0 ≤ left →
      (R.filterMap (markedChar a am)).length ≤
        (matchedChars (b.drop left.toNat) (bm.drop left.toNat)).length →
      transposeLoop a b am bm R left t =
        some (t + (mismatches (R.filterMap (markedChar a am))
          (matchedChars (b.drop left.toNat) (bm.drop left.toNat)) : Nat)) := by
  intro R
  induction R with
  | nil => intro left t _ _ _; simp [transposeLoop, mismatches]
  | cons ia rest ih =>
    intro left t hR hleft hlen
    have hia := hR ia (List.mem_cons_self _ _)
    have hrest : ∀ x ∈ rest, 0 ≤ x ∧ x < len a := fun x hx => hR x (List.mem_cons_of_mem _ hx)
    obtain ⟨m, hm⟩ := index_some am ia hia.1 (by omega)
    obtain ⟨x, hx⟩ := index_some a ia hia.1 hia.2
    cases m with
    | true =>
      have hmc : markedChar a am ia = some x := by simp [markedChar, hm, hx]
      have hfm : (ia :: rest).filterMap (markedChar a am) =
          x :: rest.filterMap (markedChar a am) := by
        simp [List.filterMap_cons, hmc]
      rw [hfm] at hlen ⊢
      obtain ⟨j, y, hj1, hj2, hj3, hj4, hj5⟩ := cursorLoop_chars b bm hbm
        ((len b - left).toNat + 1) left left hleft (by omega)
        (le_trans (by simp) hlen)
      rw [hj5] at hlen ⊢
      have hrec := ih (j + 1) (if x ≠ y then t + 1 else t) hrest (by omega)
        (by simpa using hlen)
      simp only [transposeLoop, hm, Option.some_bind, hj3, hx, hj4, if_true, hrec, mismatches]
      congr 1
      split <;> push_cast <;> omega
    | false =>
      have hmc : markedChar a am ia = none := by simp [markedChar, hm]
      have hfm : (ia :: rest).filterMap (markedChar a am) =
          rest.filterMap (markedChar a am) := by
        simp [List.filterMap_cons, hmc]
      rw [hfm] at hlen ⊢
      simp only [transposeLoop, hm, Option.some_bind]
      exact ih left t hrest hleft hlen

theorem transpositions_eq (a b : GoString) (st : MatchState) (h : matching a b = some st) :
    ((matchedChars a st.am).length : Int) = st.matched ∧
    ((matchedChars b st.bm).length : Int) = st.matched ∧
    transpositions a b st =
      some (((mismatches (matchedChars a st.am) (matchedChars b st.bm) : Nat) : Int) / 2) := by
  obtain ⟨ham, hbm, hca, hcb, _, _⟩ := matching_chars a b st h
  have hla : (matchedChars a st.am).length = st.am.count true :=
    matchedChars_length a st.am (by unfold len at ham; omega)
  have hlb : (matchedChars b st.bm).length = st.bm.count true :=
    matchedChars_length b st.bm (by unfold len at hbm; omega)
  refine ⟨by rw [hla]; exact hca, by rw [hlb]; exact hcb, ?_⟩
  have hw := transposeLoop_chars a b st.am st.bm ham hbm (rangeIndices a) 0 0
    (rangeIndices_bounds a) (le_refl _)
    (by rw [rangeIndices_markedChar a b st h]; simp; omega)
  rw [rangeIndices_markedChar a b st h] at hw
  simp only [Int.toNat_zero, List.drop_zero, zero_add] at hw
  simp [transpositions, hw]

/-- C15: for non-empty `a ≠ b` the matching pass ends, and then `am` and `bm`
have the lengths of `a` and `b`, the number of `true` entries of `am` and the
number of `true` entries of `bm` both equal `match`, and
`match ≤ min(len a, len b)`. -/
theorem match_counts (a b : GoString) (_ha : a ≠ []) (_hb : b ≠ []) (_hne : a ≠ b) :
    ∃ st, matching a b = some st ∧ len st.am = len a ∧ len st.bm = len b ∧
      (st.am.count true : Int) = st.matched ∧ (st.bm.count true : Int) = st.matched ∧
      st.matched ≤ min (len a) (len b) := by
  obtain ⟨st, hst, _⟩ := matching_spec a b
  obtain ⟨ham, hbm, hca, hcb, _, _⟩ := matching_chars a b st hst
  obtain ⟨_, hA, hB⟩ := matching_bounds a b st hst
  refine ⟨st, hst, ham, hbm, hca, hcb, ?_⟩
  unfold min
  split <;> omega

/-- Witness of C15 at ("DIXON", "DICKSONX"): 4 matches. -/
theorem match_counts_witness :
    ascii "DIXON" ≠ [] ∧ ascii "DICKSONX" ≠ [] ∧ ascii "DIXON" ≠ ascii "DICKSONX" ∧
    ∃ st, matching (ascii "DIXON") (ascii "DICKSONX") = some st ∧
      len st.am = len (ascii "DIXON") ∧ len st.bm = len (ascii "DICKSONX") ∧
      (st.am.count true : Int) = st.matched ∧ (st.bm.count true : Int) = st.matched ∧
      st.matched ≤ min (len (ascii "DIXON")) (len (ascii "DICKSONX")) :=
  ⟨by decide, by decide, by decide,
    match_counts (ascii "DIXON") (ascii "DICKSONX") (by decide) (by decide) (by decide)⟩

/-- C16: when the matching pass has found `match > 0` pairs, the matched
characters of `a` and of `b` (in increasing order of position) are `match`
many each, and the transposition count is the floor of `h / 2`, `h` being the
number of indices `k` at which the `k`-th matched character of `a` differs from
the `k`-th matched character of `b`. -/
theorem transposition_count (a b : GoString) (st : MatchState) (hst : matching a b = some st)
    (_hm : 0 < st.matched) :
    ((matchedChars a st.am).length : Int) = st.matched ∧
    ((matchedChars b st.bm).length : Int) = st.matched ∧
    transpositions a b st =
      some (((mismatches (matchedChars a st.am) (matchedChars b st.bm) : Nat) : Int) / 2) :=
  transpositions_eq a b st hst

/-- Witness of C16 at ("MARTHA", "MARHTA"): all 6 positions matched, the
matched characters differ at 2 indices, 1 transposition. -/
theorem transposition_count_witness :
    matching (ascii "MARTHA") (ascii "MARHTA") =
      some ⟨[true, true, true, true, true, true], [true, true, true, true, true, true], 6⟩ ∧
    mismatches (matchedChars (ascii "MARTHA") [true, true, true, true, true, true])
      (matchedChars (ascii "MARHTA") [true, true, true, true, true, true]) = 2 ∧
    transpositions (ascii "MARTHA") (ascii "MARHTA")
      ⟨[true, true, true, true, true, true], [true, true, true, true, true, true], 6⟩ =
      some 1 := by
  have h := transposition_count (ascii "MARTHA") (ascii "MARHTA")
    ⟨[true, true, true, true, true, true], [true, true, true, true, true, true], 6⟩
    (by decide) (by decide)
  refine ⟨by decide, by decide, ?_⟩
  rw [h.2.2]
  decide

/-- C14 (the code at an input where an index of `a` is not processed): with `a`
the UTF-8 bytes of "éa" and `b` those of "éb", `for ia := range a` takes the
values 0 and 2 only; index 1 of `a` holds `0xA9`, the window of index 1 is
`[1, 2)`, `b[1]` is `0xA9` as well and is never claimed, and still `am[1]` is
`false` after the pass, which counts 1 match. -/
theorem matching_skips_continuation_byte :
    rangeIndices [0xC3, 0xA9, 0x61] = [0, 2] ∧
    window [0xC3, 0xA9, 0x61] [0xC3, 0xA9, 0x62] = 0 ∧
    max 0 (1 - window [0xC3, 0xA9, 0x61] [0xC3, 0xA9, 0x62]) = 1 ∧
    min (1 + window [0xC3, 0xA9, 0x61] [0xC3, 0xA9, 0x62] + 1) (len [0xC3, 0xA9, 0x62]) = 2 ∧
    index [0xC3, 0xA9, 0x61] 1 = index [0xC3, 0xA9, 0x62] 1 ∧
    matching [0xC3, 0xA9, 0x61] [0xC3, 0xA9, 0x62] =
      some ⟨[true, false, false], [true, false, false], 1⟩ :=
  ⟨by decide, by decide, by decide, by decide, by decide, by decide⟩

/-- C19 (the code at a short input where a same-index pair is not matched):
with `a` the UTF-8 bytes of "é" and `b` those of "©", both of length 2, the
window is 0, `a[1] = b[1] = 0xA9` and `1 < len(b)`, yet position 1 of `a` is not
matched: `for ia := range a` takes the value 0 only, the pass counts no match
and `Jaro(a, b)` is 0. -/
theorem short_window_skips_continuation_byte :
    [0xC3, 0xA9] ≠ [0xC2, 0xA9] ∧
    window [0xC3, 0xA9] [0xC2, 0xA9] = 0 ∧
    index [0xC3, 0xA9] 1 = index [0xC2, 0xA9] 1 ∧
    rangeIndices [0xC3, 0xA9] = [0] ∧
    matching [0xC3, 0xA9] [0xC2, 0xA9] = some ⟨[false, false], [false, false], 0⟩ ∧
    Jaro [0xC3, 0xA9] [0xC2, 0xA9] = some 0 :=
  ⟨by decide, by decide, by decide, by decide, by decide,
    jaro_of_outcome _ _ .noMatch 0 (by decide) rfl⟩

/-! ## Scores within the 64-bit range -/

end Distance
